import Mathlib

/-!
# Verification of the `bit_vector` repository (src/bit_vector.h)

Shallow embedding of the C bit-vector library.  The authoritative source is
`src/bit_vector.h`, which contains both the public header and the
implementation of every function referenced by the claims.

Modelling conventions:
* `uint64_t` quantities (`length`, `index`, bit indices) are modelled as `Nat`.
  All values arising in the claims are far below `2^64`, so no wrap-around is
  observable and no explicit `% 2^64` is required.
* The heap byte buffer `uint8_t *array` is modelled as a total function
  `Nat → Nat` from byte index to byte value.  `calloc` yields the constant-zero
  function.  `realloc` keeps the contents (the C library preserves the prefix;
  bytes past the old size may be stale in C, but no claim observes them because
  every stream bit is explicitly written by `bit_vector_set`/`bit_vector_clear`
  before it is read).  The exact number of allocated bytes is a memory-layout
  concern that the embedding abstracts away.
* `NULL` pointer arguments are modelled by `Option`: `none` is the null handle.
* A C function that can fail returns `Except Errno α`; the `Errno` constructor
  records the value the C code stores into `errno` on that path.
* Allocation failure (`malloc`/`calloc`/`realloc` returning `NULL`) is not
  modelled: the claims all assume allocation succeeds.
* The positioned-I/O byte store (the file reached through `fd` with
  `pwrite`/`pread`) is modelled as a total function `Nat → Nat` from byte
  offset to byte value; `pwrite`/`pread` always transfer the full requested
  length (the claims all condition on I/O success).  Multi-byte integers are
  laid out least-significant byte first, the byte order of the hosts the
  library targets (the format is declared host-native).
-/

namespace BitVector

/-- `bit_vector_type` enumeration: `BIT_VECTOR_TYPE_STREAM = 0`,
`BIT_VECTOR_TYPE_ARRAY = 1`. -/
inductive bit_vector_type where
  | STREAM
  | ARRAY
deriving DecidableEq, Repr, Inhabited

/-- The `errno` values the library stores: `EINVAL` for invalid parameters and
`ENOSR` for detaching from an empty stream. -/
inductive Errno where
  | EINVAL
  | ENOSR
deriving DecidableEq, Repr, Inhabited

/-- The C struct `bit_vector_t`: byte buffer, bit capacity (`length`), stream
cursor (`index`, the used-bit count) and the mode tag. -/
structure bit_vector_t where
  array : Nat → Nat
  length : Nat
  index : Nat
  vector_type : bit_vector_type

instance : Inhabited bit_vector_t :=
  ⟨{ array := fun _ => 0, length := 0, index := 0, vector_type := .STREAM }⟩

/-- Extract the vector of a successful call, with a fallback for the error
case.  In C an operation that fails leaves the caller's vector untouched, so
the fallback is always instantiated with the pre-call vector. -/
def exOk (e : Except Errno bit_vector_t) (d : bit_vector_t) : bit_vector_t :=
  match e with
  | .ok w => w
  | .error _ => d

/-- Macro `BIT_VECTOR_GET_BYTE_INDEX(i)`: `i / BIT_VECTOR_BITS_IN_BYTE`. -/
def BIT_VECTOR_GET_BYTE_INDEX (i : Nat) : Nat := i / 8

/-- Macro `BIT_VECTOR_GET_BIT_INDEX(i)`: `i & 0x7`. -/
def BIT_VECTOR_GET_BIT_INDEX (i : Nat) : Nat := i &&& 7

/-- The bit stored at bit index `i`: the C expression
`!!(vector->array[BIT_VECTOR_GET_BYTE_INDEX(i)] & (1 << BIT_VECTOR_GET_BIT_INDEX(i)))`,
shared by `bit_vector_get` (after its bounds check) and, through it, by
`bit_vector_detach`. -/
def bitAt (v : bit_vector_t) (i : Nat) : Nat :=
  if v.array (BIT_VECTOR_GET_BYTE_INDEX i) &&& (1 <<< BIT_VECTOR_GET_BIT_INDEX i) ≠ 0
  then 1 else 0

/-- `bit_vector_create` (src/bit_vector.h:178-210).  For `STREAM` the capacity
is `1 << ((int)log2(length) + 1)`.  For integer arguments `length ≥ 1` the C
expression `(int)log2(length)` equals `Nat.log2 length` (the double-precision
`log2` of such an argument never rounds across an integer boundary for any
`length` small enough for the subsequent `int` shift to be defined).  For
`length = 0` the C expression converts `-∞` to `int`, which is undefined; the
model extends it by `Nat.log2 0 = 0`, i.e. capacity 2.  The buffer is
`calloc`-zeroed, `index = 0`. -/
def bit_vector_create (type : bit_vector_type) (length : Nat) : bit_vector_t :=
  let temp_length := if type = .STREAM then 2 ^ (Nat.log2 length + 1) else length
  { array := fun _ => 0
    length := temp_length
    index := 0
    vector_type := type }

/-- `bit_vector_set` (src/bit_vector.h:242-256): bounds-check then
`array[i/8] |= 1 << (i & 7)`. -/
def bit_vector_set (vector : Option bit_vector_t) (index : Nat) :
    Except Errno bit_vector_t :=
  match vector with
  | none => .error .EINVAL
  | some v =>
    if v.length ≤ index then .error .EINVAL
    else
      .ok { v with
        array := Function.update v.array (BIT_VECTOR_GET_BYTE_INDEX index)
          (v.array (BIT_VECTOR_GET_BYTE_INDEX index) |||
            (1 <<< BIT_VECTOR_GET_BIT_INDEX index)) }

/-- `bit_vector_clear` (src/bit_vector.h:270-284): bounds-check then
`array[i/8] &= (uint8_t)~(1 << (i & 7))`.  The `uint8_t` truncation of
`~(1 << k)` for `k < 8` is `255 ^^^ (1 <<< k)`. -/
def bit_vector_clear (vector : Option bit_vector_t) (index : Nat) :
    Except Errno bit_vector_t :=
  match vector with
  | none => .error .EINVAL
  | some v =>
    if v.length ≤ index then .error .EINVAL
    else
      .ok { v with
        array := Function.update v.array (BIT_VECTOR_GET_BYTE_INDEX index)
          (v.array (BIT_VECTOR_GET_BYTE_INDEX index) &&&
            (255 ^^^ (1 <<< BIT_VECTOR_GET_BIT_INDEX index))) }

/-- `bit_vector_get` (src/bit_vector.h:299-313): bounds-check then return the
masked bit as `0`/`1`. -/
def bit_vector_get (vector : Option bit_vector_t) (index : Nat) :
    Except Errno Nat :=
  match vector with
  | none => .error .EINVAL
  | some v =>
    if v.length ≤ index then .error .EINVAL
    else .ok (bitAt v index)

/-- `bit_vector_resize` (src/bit_vector.h:325-344): `realloc` the buffer and
set the new length.  The model buffer is total, so only `length` changes; the
realloc'ed prefix keeps its contents as in C. -/
def bit_vector_resize (vector : Option bit_vector_t) (length : Nat) :
    Except Errno bit_vector_t :=
  match vector with
  | none => .error .EINVAL
  | some v => .ok { v with length := length }

/-- `bit_vector_detach` (src/bit_vector.h:356-376): stream-only LIFO pop.
Decrements `index`, then reads the bit through `bit_vector_get`.  If that read
fails (only possible when `index > length`), the C code stores the `-1` return
in a `uint8_t` (becoming 255) and returns it as `int8_t` (becoming `-1`
again); the decrement has happened regardless. -/
def bit_vector_detach (vector : Option bit_vector_t) :
    Except Errno (Int × bit_vector_t) :=
  match vector with
  | none => .error .EINVAL
  | some v =>
    if v.vector_type = .ARRAY then .error .EINVAL
    else if v.index = 0 then .error .ENOSR
    else
      let w : bit_vector_t := { v with index := v.index - 1 }
      match bit_vector_get (some w) w.index with
      | .ok b => .ok ((b : Int), w)
      | .error _ => .ok (-1, w)

/-- `bit_vector_append_bit` (src/bit_vector.h:389-417): reject `bit > 1`,
reject `ARRAY` mode; double the capacity via `bit_vector_resize` when full;
write the bit with `bit_vector_clear`/`bit_vector_set` (the C code ignores
their return value) and increment `index`. -/
def bit_vector_append_bit (vector : Option bit_vector_t) (bit : Nat) :
    Except Errno bit_vector_t :=
  match vector with
  | none => .error .EINVAL
  | some v =>
    if 1 < bit then .error .EINVAL
    else if v.vector_type = .ARRAY then .error .EINVAL
    else
      let v1 := if v.index = v.length
        then exOk (bit_vector_resize (some v) (v.length * 2)) v
        else v
      let v2 := if bit = 0
        then exOk (bit_vector_clear (some v1) v1.index) v1
        else exOk (bit_vector_set (some v1) v1.index) v1
      .ok { v2 with index := v2.index + 1 }

/-- The append loop shared by `bit_vector_append_string` and
`bit_vector_append_vector`: append the bits in order with
`bit_vector_append_bit`; on the first failure return that error together with
the vector state at that point (a failed `bit_vector_append_bit` leaves the
vector unchanged, and the C caller's handle keeps the partial appends). -/
def appendBitsLoop (v : bit_vector_t) : List Nat → Option Errno × bit_vector_t
  | [] => (none, v)
  | b :: bs =>
    match bit_vector_append_bit (some v) b with
    | .ok w => appendBitsLoop w bs
    | .error e => (some e, v)

/-- The `uint8_t` value of `bit_string[i] - 0x30` in C: the character code
minus 48, reduced modulo 256. -/
def charToBit (c : Char) : Nat := (c.toNat + 208) % 256

/-- `bit_vector_append_string` (src/bit_vector.h:430-451): reject null
arguments and `ARRAY` mode, then append `bit_string[i] - '0'` for each
character in order, stopping at the first failed append. -/
def bit_vector_append_string (vector : Option bit_vector_t)
    (bit_string : Option (List Char)) : Except Errno bit_vector_t :=
  match vector, bit_string with
  | none, _ => .error .EINVAL
  | some _, none => .error .EINVAL
  | some v, some s =>
    if v.vector_type = .ARRAY then .error .EINVAL
    else
      match appendBitsLoop v (s.map charToBit) with
      | (none, w) => .ok w
      | (some e, _) => .error e

/-- `bit_vector_append_vector` (src/bit_vector.h:469-497): reject null
arguments and an `ARRAY` destination.  `append_length` is the source's natural
length when `size == 0` and exactly `size` otherwise (no cap).  Each iteration
reads `bit_vector_get(src, i)` into a `uint8_t` (a failed read yields
`(uint8_t)-1 = 255`) and appends it; the first failed append aborts with the
partial appends kept.  The model reads from the immutable `src` argument; this
coincides with the C code whenever `dest` and `src` are distinct objects, and
also for the self-append `size == 0` case, where all reads are below the
pre-call `index` and therefore unaffected by the concurrent appends. -/
def bit_vector_append_vector (dest src : Option bit_vector_t) (size : Nat) :
    Except Errno bit_vector_t :=
  match dest, src with
  | none, _ => .error .EINVAL
  | some _, none => .error .EINVAL
  | some d, some s =>
    if d.vector_type = .ARRAY then .error .EINVAL
    else
      let append_length :=
        if size = 0 then (if s.vector_type = .ARRAY then s.length else s.index)
        else size
      let bs := (List.range append_length).map fun i =>
        match bit_vector_get (some s) i with
        | .ok b => b
        | .error _ => 255
      match appendBitsLoop d bs with
      | (none, w) => .ok w
      | (some e, _) => .error e

/-- `bit_vector_string_to_vector` (src/bit_vector.h:509-520): create a
`STREAM` vector with a zero length hint and append the string into it. -/
def bit_vector_string_to_vector (bit_string : Option (List Char)) :
    Except Errno bit_vector_t :=
  bit_vector_append_string (some (bit_vector_create .STREAM 0)) bit_string

/-- `bit_vector_vector_to_string` (src/bit_vector.h:532-556): one character
per bit, `bit_vector_get(vector, i) + 0x30`, over `length` bits for `ARRAY`
and `index` bits for `STREAM`.  A failed `bit_vector_get` (only possible when
`index > length` on a stream) contributes `-1 + 48 = 47`, i.e. `'/'`. -/
def bit_vector_vector_to_string (vector : Option bit_vector_t) :
    Except Errno (List Char) :=
  match vector with
  | none => .error .EINVAL
  | some v =>
    let string_length := if v.vector_type = .ARRAY then v.length else v.index
    .ok ((List.range string_length).map fun i =>
      match bit_vector_get (some v) i with
      | .ok b => Char.ofNat (b + 48)
      | .error _ => Char.ofNat 47)

/-- Write the 8 bytes of a `uint64_t`, least-significant byte first, at
`off`, `off+1`, ..., `off+7`. -/
def write64 (store : Nat → Nat) (off val : Nat) : Nat → Nat :=
  fun a => if off ≤ a ∧ a < off + 8 then (val >>> (8 * (a - off))) % 256 else store a

/-- Read back the 8 bytes of a `uint64_t` written by `write64`. -/
def read64 (store : Nat → Nat) (off : Nat) : Nat :=
  store off +
    256 * (store (off + 1) +
      256 * (store (off + 2) +
        256 * (store (off + 3) +
          256 * (store (off + 4) +
            256 * (store (off + 5) +
              256 * (store (off + 6) +
                256 * store (off + 7)))))))

/-- Copy `n` bytes of `src` (a byte buffer read from index 0) into the store
at offset `off`. -/
def writeBytes (store : Nat → Nat) (off : Nat) (src : Nat → Nat) (n : Nat) :
    Nat → Nat :=
  fun a => if off ≤ a ∧ a < off + n then src (a - off) else store a

/-- `bit_vector_file_output` (src/bit_vector.h:601-643): write a 17-byte
header (1 type byte, 8 bytes `length`, 8 bytes `index`) at `offset`, then
`BIT_VECTOR_BITS_TO_BYTES(payload_bits)` = `payload_bits / 8` payload bytes of
the raw buffer, where `payload_bits` is `length` for `ARRAY` and `index` for
`STREAM`; return the offset after the payload. -/
def bit_vector_file_output (vector : Option bit_vector_t) (store : Nat → Nat)
    (offset : Nat) : Except Errno ((Nat → Nat) × Nat) :=
  match vector with
  | none => .error .EINVAL
  | some v =>
    let tag : Nat := if v.vector_type = .STREAM then 0 else 1
    let st1 : Nat → Nat := fun a => if a = offset then tag else store a
    let st2 := write64 st1 (offset + 1) v.length
    let st3 := write64 st2 (offset + 9) v.index
    let payload_bits := if v.vector_type = .ARRAY then v.length else v.index
    let length_of_array := payload_bits / 8
    let st4 := writeBytes st3 (offset + 17) v.array length_of_array
    .ok (st4, offset + 17 + length_of_array)

/-- `bit_vector_file_input` (src/bit_vector.h:663-704): read the 17-byte
header, build the vector with `bit_vector_create` (re-applying the stream
rounding to the stored `length`), overwrite `index` from the header, then read
`payload_bits / 8` payload bytes into the freshly zeroed buffer.  Returns the
vector and the next read offset (the C code returns it through `*offset`).
The type byte is compared against `BIT_VECTOR_TYPE_STREAM = 0` by
`bit_vector_create`. -/
def bit_vector_file_input (store : Nat → Nat) (offset : Nat) :
    bit_vector_t × Nat :=
  let tag := store offset
  let len := read64 store (offset + 1)
  let idx := read64 store (offset + 9)
  let ty : bit_vector_type := if tag = 0 then .STREAM else .ARRAY
  let v0 := bit_vector_create ty len
  let v1 : bit_vector_t := { v0 with index := idx }
  let payload_bits := if v1.vector_type = .ARRAY then v1.length else v1.index
  let length_of_array := payload_bits / 8
  let v2 : bit_vector_t := { v1 with
    array := fun b => if b < length_of_array then store (offset + 17 + b) else 0 }
  (v2, offset + 17 + length_of_array)

/-- Iterated `bit_vector_detach`: pop `n` bits, collecting the returned values
in order.  (A failed detach stops the iteration; the claims only exercise the
success path.) -/
def detachN (v : bit_vector_t) : Nat → List Int × bit_vector_t
  | 0 => ([], v)
  | n + 1 =>
    match bit_vector_detach (some v) with
    | .ok (b, w) =>
      let r := detachN w n
      (b :: r.1, r.2)
    | .error _ => ([], v)

/-- The stream invariant of the specification (§3), strengthened with the
non-degeneracy `1 ≤ length` that every constructed stream enjoys and that
`bit_vector_append_bit`'s doubling policy needs. -/
def StreamInv (v : bit_vector_t) : Prop := v.index ≤ v.length ∧ 1 ≤ v.length

instance (v : bit_vector_t) : Decidable (StreamInv v) := by
  unfold StreamInv; infer_instance

/-- The vector produced by a successful `bit_vector_set`. -/
def setResult (v : bit_vector_t) (i : Nat) : bit_vector_t :=
  { v with
    array := Function.update v.array (BIT_VECTOR_GET_BYTE_INDEX i)
      (v.array (BIT_VECTOR_GET_BYTE_INDEX i) ||| (1 <<< BIT_VECTOR_GET_BIT_INDEX i)) }

/-- The vector produced by a successful `bit_vector_clear`. -/
def clearResult (v : bit_vector_t) (i : Nat) : bit_vector_t :=
  { v with
    array := Function.update v.array (BIT_VECTOR_GET_BYTE_INDEX i)
      (v.array (BIT_VECTOR_GET_BYTE_INDEX i) &&& (255 ^^^ (1 <<< BIT_VECTOR_GET_BIT_INDEX i))) }

/-- The vector produced by a successful `bit_vector_append_bit` (capacity
doubling, bit write, cursor increment), used to state its correctness. -/
def appendResult (v : bit_vector_t) (b : Nat) : bit_vector_t :=
  let v1 := if v.index = v.length then { v with length := v.length * 2 } else v
  let v2 := if b = 0 then clearResult v1 v1.index else setResult v1 v1.index
  { v2 with index := v2.index + 1 }

/-! ### Concrete instances used to instantiate the theorems

The vectors are spelled as literal records (so that the kernel can evaluate
them without unfolding `Nat.log2`, whose well-founded definition does not
reduce definitionally); `freshStream_is_create` below proves the literal is
exactly the vector `bit_vector_create` builds from hint 1. -/

/-- A fresh stream vector as created with hint 1: capacity 2, no bits used,
zeroed buffer. -/
def freshStream : bit_vector_t :=
  { array := fun _ => 0, length := 2, index := 0, vector_type := .STREAM }

/-- `freshStream` with a single 1-bit appended: capacity 2, `used_bits = 1`. -/
def oneBitStream : bit_vector_t :=
  exOk (bit_vector_append_bit (some freshStream) 1) freshStream

/-- A 4-bit Array-mode vector holding the bit pattern `1010` (bits 0 and 2
set), the serialization scenario of spec §8. -/
def array1010 : bit_vector_t :=
  let a := bit_vector_create .ARRAY 4
  let a1 := exOk (bit_vector_set (some a) 0) a
  exOk (bit_vector_set (some a1) 2) a1

/-- The all-zero byte store. -/
def zeroStore : Nat → Nat := fun _ => 0

/-- The store produced by encoding `array1010` into `zeroStore` at offset 0. -/
def arrStore : Nat → Nat :=
  match bit_vector_file_output (some array1010) zeroStore 0 with
  | .ok p => p.1
  | .error _ => zeroStore

/-- The vector decoded back from `arrStore` at offset 0. -/
def arrDecoded : bit_vector_t := (bit_vector_file_input arrStore 0).1

/-- `oneBitStream` after `bit_vector_resize` to capacity 0. -/
def resizedToZero : bit_vector_t :=
  exOk (bit_vector_resize (some oneBitStream) 0) oneBitStream

/-- The bit/vector pair returned by detaching from `oneBitStream`. -/
def detachedPair : Int × bit_vector_t :=
  match bit_vector_detach (some oneBitStream) with
  | .ok p => p
  | .error _ => (0, oneBitStream)

/-- The destination produced by `AppendVector(freshStream, oneBitStream, 2)`. -/
def c5Dest : bit_vector_t :=
  exOk (bit_vector_append_vector (some freshStream) (some oneBitStream) 2) freshStream

end BitVector

namespace BitVector

/-! ## Bit-twiddling helper lemmas -/

theorem and_seven_eq_mod (i : Nat) : i &&& 7 = i % 8 := by
  have h := Nat.and_pow_two_sub_one_eq_mod i 3
  norm_num at h
  exact h

theorem one_shiftLeft_eq (k : Nat) : 1 <<< k = 2 ^ k := by
  rw [Nat.shiftLeft_eq, Nat.one_mul]

theorem and_pow_ne_zero_iff (x k : Nat) : x &&& 2 ^ k ≠ 0 ↔ x.testBit k := by
  constructor
  · intro h
    by_contra hb
    apply h
    apply Nat.eq_of_testBit_eq
    intro j
    rw [Nat.testBit_and, Nat.zero_testBit]
    rcases eq_or_ne j k with rfl | hjk
    · simp [Bool.eq_false_iff.mpr hb]
    · simp [Nat.testBit_two_pow_of_ne (Ne.symm hjk)]
  · intro h h0
    have : (x &&& 2 ^ k).testBit k = true := by
      rw [Nat.testBit_and, h, Nat.testBit_two_pow_self]
      rfl
    rw [h0, Nat.zero_testBit] at this
    exact Bool.false_ne_true this

theorem bitAt_eq (v : bit_vector_t) (i : Nat) :
    bitAt v i = if (v.array (i / 8)).testBit (i % 8) then 1 else 0 := by
  unfold bitAt BIT_VECTOR_GET_BYTE_INDEX BIT_VECTOR_GET_BIT_INDEX
  rw [and_seven_eq_mod, one_shiftLeft_eq]
  by_cases h : (v.array (i / 8)).testBit (i % 8)
  · rw [if_pos ((and_pow_ne_zero_iff _ _).mpr h), if_pos h]
  · rw [if_neg (fun hne => h ((and_pow_ne_zero_iff _ _).mp hne)), if_neg h]

theorem testBit_or_self (x k : Nat) : (x ||| 1 <<< k).testBit k = true := by
  rw [one_shiftLeft_eq, Nat.testBit_or, Nat.testBit_two_pow_self, Bool.or_true]

theorem testBit_or_other (x k l : Nat) (h : l ≠ k) :
    (x ||| 1 <<< k).testBit l = x.testBit l := by
  rw [one_shiftLeft_eq, Nat.testBit_or, Nat.testBit_two_pow_of_ne (Ne.symm h),
    Bool.or_false]

theorem testBit_clearMask_self (x k : Nat) (hk : k < 8) :
    (x &&& (255 ^^^ 1 <<< k)).testBit k = false := by
  have h255 : (255 : Nat) = 2 ^ 8 - 1 := by norm_num
  rw [one_shiftLeft_eq, Nat.testBit_and, Nat.testBit_xor, h255,
    Nat.testBit_two_pow_sub_one, Nat.testBit_two_pow_self]
  simp [hk]

theorem testBit_clearMask_other (x k l : Nat) (h : l ≠ k) (hl : l < 8) :
    (x &&& (255 ^^^ 1 <<< k)).testBit l = x.testBit l := by
  have h255 : (255 : Nat) = 2 ^ 8 - 1 := by norm_num
  rw [one_shiftLeft_eq, Nat.testBit_and, Nat.testBit_xor, h255,
    Nat.testBit_two_pow_sub_one, Nat.testBit_two_pow_of_ne (Ne.symm h)]
  simp [hl]

/-! ## Behaviour of `bit_vector_get`, `bit_vector_set`, `bit_vector_clear` -/

theorem get_ok (v : bit_vector_t) (i : Nat) (hi : i < v.length) :
    bit_vector_get (some v) i = .ok (bitAt v i) := by
  simp only [bit_vector_get]
  rw [if_neg (by omega)]

theorem set_ok (v : bit_vector_t) (i : Nat) (hi : i < v.length) :
    bit_vector_set (some v) i = .ok (setResult v i) := by
  simp only [bit_vector_set, setResult]
  rw [if_neg (by omega)]

theorem clear_ok (v : bit_vector_t) (i : Nat) (hi : i < v.length) :
    bit_vector_clear (some v) i = .ok (clearResult v i) := by
  simp only [bit_vector_clear, clearResult]
  rw [if_neg (by omega)]

theorem bitAt_setResult_self (v : bit_vector_t) (i : Nat) :
    bitAt (setResult v i) i = 1 := by
  rw [bitAt_eq]
  unfold setResult BIT_VECTOR_GET_BYTE_INDEX BIT_VECTOR_GET_BIT_INDEX
  simp only [Function.update_same, and_seven_eq_mod]
  rw [if_pos (testBit_or_self _ _)]

theorem bitAt_clearResult_self (v : bit_vector_t) (i : Nat) :
    bitAt (clearResult v i) i = 0 := by
  rw [bitAt_eq]
  unfold clearResult BIT_VECTOR_GET_BYTE_INDEX BIT_VECTOR_GET_BIT_INDEX
  simp only [Function.update_same, and_seven_eq_mod]
  rw [if_neg]
  simp [testBit_clearMask_self _ _ (Nat.mod_lt i (by norm_num))]

theorem bitAt_setResult_other (v : bit_vector_t) (i j : Nat) (h : j ≠ i) :
    bitAt (setResult v i) j = bitAt v j := by
  rw [bitAt_eq, bitAt_eq]
  unfold setResult BIT_VECTOR_GET_BYTE_INDEX BIT_VECTOR_GET_BIT_INDEX
  simp only [and_seven_eq_mod]
  rcases eq_or_ne (j / 8) (i / 8) with hb | hb
  · rw [hb, Function.update_same]
    have hbit : j % 8 ≠ i % 8 := by omega
    rw [testBit_or_other _ _ _ hbit]
  · rw [Function.update_noteq hb]

theorem bitAt_clearResult_other (v : bit_vector_t) (i j : Nat) (h : j ≠ i) :
    bitAt (clearResult v i) j = bitAt v j := by
  rw [bitAt_eq, bitAt_eq]
  unfold clearResult BIT_VECTOR_GET_BYTE_INDEX BIT_VECTOR_GET_BIT_INDEX
  simp only [and_seven_eq_mod]
  rcases eq_or_ne (j / 8) (i / 8) with hb | hb
  · rw [hb, Function.update_same]
    have hbit : j % 8 ≠ i % 8 := by omega
    rw [testBit_clearMask_other _ _ _ hbit (Nat.mod_lt j (by norm_num))]
  · rw [Function.update_noteq hb]

/-- C4: for every vector and indices `i, j < capacity_bits` with `j ≠ i`,
`Get` after `Set(i)` returns 1 at `i`, `Get` after `Clear(i)` returns 0 at
`i`, and both leave the value `Get` returns at `j` unchanged. -/
theorem c4_set_clear_get_frame (v : bit_vector_t) (i j : Nat)
    (hi : i < v.length) (hj : j < v.length) (hij : j ≠ i) :
    ∃ ws wc,
      bit_vector_set (some v) i = .ok ws ∧
      bit_vector_clear (some v) i = .ok wc ∧
      bit_vector_get (some ws) i = .ok 1 ∧
      bit_vector_get (some wc) i = .ok 0 ∧
      bit_vector_get (some ws) j = bit_vector_get (some v) j ∧
      bit_vector_get (some wc) j = bit_vector_get (some v) j := by
  refine ⟨setResult v i, clearResult v i, set_ok v i hi, clear_ok v i hi, ?_, ?_, ?_, ?_⟩
  · rw [get_ok _ _ (by simpa [setResult] using hi), bitAt_setResult_self]
  · rw [get_ok _ _ (by simpa [clearResult] using hi), bitAt_clearResult_self]
  · rw [get_ok _ _ (by simpa [setResult] using hj), get_ok _ _ hj,
      bitAt_setResult_other _ _ _ hij]
  · rw [get_ok _ _ (by simpa [clearResult] using hj), get_ok _ _ hj,
      bitAt_clearResult_other _ _ _ hij]

/-- Witness for C4: a concrete 64-bit array vector, `i = 10`, `j = 12`. -/
theorem c4_set_clear_get_frame_witness :
    ∃ ws wc,
      bit_vector_set (some (bit_vector_create .ARRAY 64)) 10 = .ok ws ∧
      bit_vector_clear (some (bit_vector_create .ARRAY 64)) 10 = .ok wc ∧
      bit_vector_get (some ws) 10 = .ok 1 ∧
      bit_vector_get (some wc) 10 = .ok 0 ∧
      bit_vector_get (some ws) 12 = bit_vector_get (some (bit_vector_create .ARRAY 64)) 12 ∧
      bit_vector_get (some wc) 12 = bit_vector_get (some (bit_vector_create .ARRAY 64)) 12 :=
  c4_set_clear_get_frame (bit_vector_create .ARRAY 64) 10 12
    (by decide) (by decide) (by decide)

end BitVector

namespace BitVector

/-! ## Behaviour of `bit_vector_append_bit` and the append loop -/

theorem bitAt_index_irrel (v : bit_vector_t) (n i : Nat) :
    bitAt { v with index := n } i = bitAt v i := rfl

theorem bitAt_length_irrel (v : bit_vector_t) (n i : Nat) :
    bitAt { v with length := n } i = bitAt v i := rfl

theorem append_bit_eq_ok (v : bit_vector_t) (b : Nat) (hm : v.vector_type = .STREAM)
    (hb : b ≤ 1) (hinv : v.index ≤ v.length) (hpos : 1 ≤ v.length) :
    bit_vector_append_bit (some v) b = .ok (appendResult v b) := by
  have harr : ¬ v.vector_type = .ARRAY := by rw [hm]; intro h; cases h
  have hb' : ¬ 1 < b := by omega
  by_cases hfull : v.index = v.length
  · have hidx : v.index < v.length * 2 := by omega
    rcases Nat.le_one_iff_eq_zero_or_eq_one.mp hb with rfl | rfl
    · simp only [appendResult, bit_vector_append_bit, if_neg hb', if_neg harr,
        if_pos hfull, bit_vector_resize, exOk, if_pos rfl]
      rw [clear_ok { v with length := v.length * 2 } v.index hidx]
      try rfl
    · simp only [appendResult, bit_vector_append_bit, if_neg hb', if_neg harr,
        if_pos hfull, bit_vector_resize, exOk, if_neg (by omega : ¬ (1 : Nat) = 0)]
      rw [set_ok { v with length := v.length * 2 } v.index hidx]
      try rfl
  · have hidx : v.index < v.length := by omega
    rcases Nat.le_one_iff_eq_zero_or_eq_one.mp hb with rfl | rfl
    · simp only [appendResult, bit_vector_append_bit, if_neg hb', if_neg harr,
        if_neg hfull, if_pos rfl]
      rw [clear_ok v v.index hidx]
      try rfl
    · simp only [appendResult, bit_vector_append_bit, if_neg hb', if_neg harr,
        if_neg hfull, if_neg (by omega : ¬ (1 : Nat) = 0)]
      rw [set_ok v v.index hidx]
      try rfl

theorem appendResult_index (v : bit_vector_t) (b : Nat) :
    (appendResult v b).index = v.index + 1 := by
  unfold appendResult
  split <;> split <;> rfl

theorem appendResult_type (v : bit_vector_t) (b : Nat) :
    (appendResult v b).vector_type = v.vector_type := by
  unfold appendResult
  split <;> split <;> rfl

theorem appendResult_length (v : bit_vector_t) (b : Nat) :
    (appendResult v b).length = if v.index = v.length then v.length * 2 else v.length := by
  unfold appendResult
  split <;> split <;> rfl

theorem appendResult_inv (v : bit_vector_t) (b : Nat)
    (hinv : v.index ≤ v.length) (hpos : 1 ≤ v.length) :
    (appendResult v b).index ≤ (appendResult v b).length ∧
      1 ≤ (appendResult v b).length ∧ v.length ≤ (appendResult v b).length := by
  rw [appendResult_index, appendResult_length]
  split <;> omega

theorem appendResult_bitAt_self (v : bit_vector_t) (b : Nat) (hb : b ≤ 1) :
    bitAt (appendResult v b) v.index = b := by
  simp only [appendResult]
  set v1 := if v.index = v.length then { v with length := v.length * 2 } else v with hv1
  have h1 : v1.index = v.index := by rw [hv1]; split <;> rfl
  rcases Nat.le_one_iff_eq_zero_or_eq_one.mp hb with rfl | rfl
  · rw [if_pos rfl, bitAt_index_irrel, ← h1, bitAt_clearResult_self]
  · rw [if_neg (by omega : ¬ (1 : Nat) = 0), bitAt_index_irrel, ← h1,
      bitAt_setResult_self]

theorem appendResult_bitAt_lt (v : bit_vector_t) (b i : Nat) (hi : i < v.index) :
    bitAt (appendResult v b) i = bitAt v i := by
  simp only [appendResult]
  set v1 := if v.index = v.length then { v with length := v.length * 2 } else v with hv1
  have h1 : v1.index = v.index := by rw [hv1]; split <;> rfl
  have h2 : ∀ j, bitAt v1 j = bitAt v j := by
    intro j; rw [hv1]; split
    · rw [bitAt_length_irrel]
    · rfl
  rcases eq_or_ne b 0 with rfl | hb0
  · rw [if_pos rfl, bitAt_index_irrel, bitAt_clearResult_other _ _ _ (by omega), h2]
  · rw [if_neg hb0, bitAt_index_irrel, bitAt_setResult_other _ _ _ (by omega), h2]

end BitVector

namespace BitVector

theorem appendBitsLoop_ok (bs : List Nat) (v : bit_vector_t)
    (hm : v.vector_type = .STREAM) (hbs : ∀ b ∈ bs, b ≤ 1)
    (hinv : v.index ≤ v.length) (hpos : 1 ≤ v.length) :
    ∃ w, appendBitsLoop v bs = (none, w) ∧ w.vector_type = .STREAM ∧
      w.index = v.index + bs.length ∧ w.index ≤ w.length ∧ 1 ≤ w.length ∧
      v.length ≤ w.length ∧
      (∀ i, i < v.index → bitAt w i = bitAt v i) ∧
      (∀ k, k < bs.length → bitAt w (v.index + k) = bs.getD k 0) := by
  induction bs generalizing v with
  | nil =>
    exact ⟨v, rfl, hm, by simp, hinv, hpos, Nat.le_refl _, fun i _ => rfl,
      fun k hk => absurd hk (by simp)⟩
  | cons b bs ih =>
    have hb : b ≤ 1 := hbs b (by simp)
    have heq := append_bit_eq_ok v b hm hb hinv hpos
    obtain ⟨hai, hap, hal⟩ := appendResult_inv v b hinv hpos
    have hm' : (appendResult v b).vector_type = .STREAM := by
      rw [appendResult_type, hm]
    obtain ⟨w, hw, h1, h2, h3, h4, h5, h6, h7⟩ :=
      ih (appendResult v b) hm' (fun x hx => hbs x (by simp [hx])) hai hap
    refine ⟨w, ?_, h1, ?_, h3, h4, Nat.le_trans hal h5, ?_, ?_⟩
    · simp only [appendBitsLoop, heq]
      exact hw
    · rw [h2, appendResult_index, List.length_cons]
      omega
    · intro i hi
      rw [h6 i (by rw [appendResult_index]; omega), appendResult_bitAt_lt v b i hi]
    · intro k hk
      cases k with
      | zero =>
        have h := h6 v.index (by rw [appendResult_index]; omega)
        rw [Nat.add_zero, h, appendResult_bitAt_self v b hb, List.getD_cons_zero]
      | succ k =>
        have hk' : k < bs.length := by simpa using hk
        have h := h7 k hk'
        rw [appendResult_index] at h
        have harith : v.index + (k + 1) = v.index + 1 + k := by omega
        rw [harith, h, List.getD_cons_succ]

theorem detach_eq_ok (v : bit_vector_t) (hm : v.vector_type = .STREAM)
    (h0 : 0 < v.index) (hinv : v.index ≤ v.length) :
    bit_vector_detach (some v) =
      .ok (((bitAt v (v.index - 1) : Nat) : Int), { v with index := v.index - 1 }) := by
  have harr : ¬ v.vector_type = .ARRAY := by rw [hm]; intro h; cases h
  simp only [bit_vector_detach, if_neg harr, if_neg (by omega : ¬ v.index = 0)]
  rw [get_ok { v with index := v.index - 1 } (v.index - 1) (by simpa using by omega)]
  rfl

theorem detachN_spec (n : Nat) (u : bit_vector_t) (m : Nat)
    (hm : u.vector_type = .STREAM) (hidx : u.index = m + n)
    (hinv : u.index ≤ u.length) :
    (detachN u n).1 =
        (List.range n).map (fun k => ((bitAt u (m + n - 1 - k) : Nat) : Int)) ∧
      (detachN u n).2.index = m ∧ (detachN u n).2.array = u.array ∧
      (detachN u n).2.length = u.length ∧
      (detachN u n).2.vector_type = u.vector_type := by
  induction n generalizing u m with
  | zero =>
    refine ⟨by simp [detachN], ?_, rfl, rfl, rfl⟩
    simp [detachN]
    omega
  | succ n ih =>
    have hd := detach_eq_ok u hm (by omega) hinv
    have hW : ({ u with index := u.index - 1 } : bit_vector_t).index = m + n := by
      simp; omega
    obtain ⟨h1, h2, h3, h4, h5⟩ :=
      ih { u with index := u.index - 1 } m hm hW (by simp; omega)
    have hred : detachN u (n + 1) =
        (((bitAt u (u.index - 1) : Nat) : Int) :: (detachN { u with index := u.index - 1 } n).1,
          (detachN { u with index := u.index - 1 } n).2) := by
      simp only [detachN, hd]
    rw [hred]
    refine ⟨?_, h2, h3, h4, h5⟩
    show ((bitAt u (u.index - 1) : Nat) : Int) ::
        (detachN { u with index := u.index - 1 } n).1 = _
    rw [List.range_succ_eq_map, List.map_cons, List.map_map]
    congr 1
    · have harith : u.index - 1 = m + (n + 1) - 1 - 0 := by omega
      rw [harith]
    · rw [h1]
      apply List.map_congr_left
      intro k hk
      show ((bitAt { u with index := u.index - 1 } (m + n - 1 - k) : Nat) : Int) =
        ((bitAt u (m + (n + 1) - 1 - (k + 1)) : Nat) : Int)
      have harith : m + (n + 1) - 1 - (k + 1) = m + n - 1 - k := by omega
      rw [harith]
      rfl

end BitVector

namespace BitVector

/-! ## Evaluation of stream creation at the concrete hints used below -/

theorem freshStream_is_create : bit_vector_create .STREAM 1 = freshStream := by
  simp [bit_vector_create, freshStream, Nat.log2]

theorem createStream0_eval : bit_vector_create .STREAM 0 = freshStream := by
  simp [bit_vector_create, freshStream, Nat.log2]

/-! ## Claim C6: append/detach is a stack -/

/-- C6: on a Stream-mode vector satisfying the stream invariant, appending
bits `b1, ..., bn` (each append succeeding) and then detaching `n` times
returns `bn, ..., b1` in that order and restores `used_bits` to its
pre-append value. -/
theorem c6_append_detach_stack (v : bit_vector_t) (bs : List Nat)
    (hm : v.vector_type = .STREAM) (hbs : ∀ b ∈ bs, b ≤ 1)
    (hinv : v.index ≤ v.length) (hpos : 1 ≤ v.length) :
    ∃ w, appendBitsLoop v bs = (none, w) ∧
      (detachN w bs.length).1 = bs.reverse.map (fun b => ((b : Nat) : Int)) ∧
      (detachN w bs.length).2.index = v.index := by
  obtain ⟨w, hw, h1, h2, h3, h4, h5, h6, h7⟩ := appendBitsLoop_ok bs v hm hbs hinv hpos
  obtain ⟨d1, d2, d3, d4, d5⟩ := detachN_spec bs.length w v.index h1 h2 h3
  refine ⟨w, hw, ?_, d2⟩
  rw [d1]
  apply List.ext_getElem
  · simp
  · intro k hk1 hk2
    have hkn : k < bs.length := by simpa using hk1
    simp only [List.getElem_map, List.getElem_range, List.getElem_reverse]
    have hj : bs.length - 1 - k < bs.length := by omega
    have harith : v.index + bs.length - 1 - k = v.index + (bs.length - 1 - k) := by
      omega
    rw [harith, h7 (bs.length - 1 - k) hj]
    have hgd : bs.getD (bs.length - 1 - k) 0 = bs[bs.length - 1 - k] := by
      simp [List.getD_eq_getElem?_getD, List.getElem?_eq_getElem hj]
    rw [hgd]

/-- Witness for C6: `freshStream` with the bit sequence `[1, 0, 1]`. -/
theorem c6_append_detach_stack_witness :
    ∃ w, appendBitsLoop freshStream [1, 0, 1] = (none, w) ∧
      (detachN w [1, 0, 1].length).1 = [1, 0, 1].reverse.map (fun b => ((b : Nat) : Int)) ∧
      (detachN w [1, 0, 1].length).2.index = freshStream.index :=
  c6_append_detach_stack freshStream [1, 0, 1] (by decide) (by decide)
    (by decide) (by decide)

/-! ## Claim C10: detach only moves `used_bits` -/

/-- C10: on a valid Stream-mode vector with `used_bits > 0`, a successful
`bit_vector_detach` returns the bit at position `used_bits - 1` together with
the same vector with only `index` decremented (buffer, capacity and mode
untouched), and `bit_vector_get` at the new `used_bits` position returns the
very bit `bit_vector_detach` returned. -/
theorem c10_detach_frame (v : bit_vector_t) (hm : v.vector_type = .STREAM)
    (h0 : 0 < v.index) (hinv : v.index ≤ v.length) :
    bit_vector_detach (some v) =
      .ok (((bitAt v (v.index - 1) : Nat) : Int), { v with index := v.index - 1 }) ∧
    bit_vector_get (some { v with index := v.index - 1 }) (v.index - 1) =
      .ok (bitAt v (v.index - 1)) :=
  ⟨detach_eq_ok v hm h0 hinv,
    get_ok { v with index := v.index - 1 } (v.index - 1)
      (by show v.index - 1 < v.length; omega)⟩

/-- Witness for C10: `oneBitStream`, whose single used bit is 1. -/
theorem c10_detach_frame_witness :
    bit_vector_detach (some oneBitStream) =
      .ok (((bitAt oneBitStream (oneBitStream.index - 1) : Nat) : Int),
        { oneBitStream with index := oneBitStream.index - 1 }) ∧
    bit_vector_get (some { oneBitStream with index := oneBitStream.index - 1 })
        (oneBitStream.index - 1) =
      .ok (bitAt oneBitStream (oneBitStream.index - 1)) :=
  c10_detach_frame oneBitStream (by decide) (by decide) (by decide)

/-! ## Claim C1: string-to-vector round trip -/

theorem vector_to_string_stream_eq (w : bit_vector_t)
    (hm : w.vector_type = .STREAM) (hinv : w.index ≤ w.length) :
    bit_vector_vector_to_string (some w) =
      .ok ((List.range w.index).map fun i => Char.ofNat (bitAt w i + 48)) := by
  have harr : ¬ w.vector_type = .ARRAY := by rw [hm]; intro h; cases h
  simp only [bit_vector_vector_to_string, if_neg harr]
  congr 1
  apply List.map_congr_left
  intro i hi
  rw [get_ok w i (Nat.lt_of_lt_of_le (List.mem_range.mp hi) hinv)]

/-- C1: for every string of `'0'`/`'1'` characters (the empty string
included), `bit_vector_string_to_vector` succeeds, yields a Stream-mode
vector, and `bit_vector_vector_to_string` maps it back to exactly the input
string. -/
theorem c1_string_round_trip (s : List Char)
    (hs : ∀ c ∈ s, c = '0' ∨ c = '1') :
    ∃ w, bit_vector_string_to_vector (some s) = .ok w ∧
      w.vector_type = .STREAM ∧
      bit_vector_vector_to_string (some w) = .ok s := by
  have hbits : ∀ b ∈ s.map charToBit, b ≤ 1 := by
    intro b hb
    obtain ⟨c, hc, rfl⟩ := List.mem_map.mp hb
    rcases hs c hc with rfl | rfl <;> decide
  obtain ⟨w, hw, h1, h2, h3, h4, h5, h6, h7⟩ :=
    appendBitsLoop_ok (s.map charToBit) (bit_vector_create .STREAM 0) rfl hbits
      (by rw [createStream0_eval]; decide) (by rw [createStream0_eval]; decide)
  refine ⟨w, ?_, h1, ?_⟩
  · simp only [bit_vector_string_to_vector, bit_vector_append_string,
      if_neg (by decide : ¬ (bit_vector_create .STREAM 0).vector_type = .ARRAY), hw]
  · rw [vector_to_string_stream_eq w h1 h3]
    congr 1
    have hidx : w.index = s.length := by
      rw [h2]
      simp [bit_vector_create]
    apply List.ext_getElem
    · simp [hidx]
    · intro i hi1 hi2
      have hi : i < s.length := by simpa using hi2
      simp only [List.getElem_map, List.getElem_range]
      have h7' := h7 i (by simpa using hi)
      have hz : (bit_vector_create .STREAM 0).index = 0 := rfl
      rw [hz, Nat.zero_add] at h7'
      have hgd : (s.map charToBit).getD i 0 = charToBit s[i] := by
        simp [List.getD_eq_getElem?_getD,
          List.getElem?_eq_getElem (by simpa using hi : i < (s.map charToBit).length)]
      rw [h7', hgd]
      rcases hs s[i] (List.getElem_mem hi) with hc | hc <;> rw [hc] <;> decide

/-- Witness for C1: the string `"101"`. -/
theorem c1_string_round_trip_witness :
    ∃ w, bit_vector_string_to_vector (some ['1', '0', '1']) = .ok w ∧
      w.vector_type = .STREAM ∧
      bit_vector_vector_to_string (some w) = .ok ['1', '0', '1'] :=
  c1_string_round_trip ['1', '0', '1'] (by decide)

/-! ## Claim C3: stream construction capacity -/

/-- C3 counterexample: the claim says `Construct(Stream, 1)` has capacity
equal to the smallest power of two `≥ max(1, 1) = 1`, i.e. capacity 1; the
code produces capacity 2. -/
theorem c3_counterexample :
    (bit_vector_create .STREAM 1).length = 2 ∧
      ((bit_vector_create .STREAM 1).length = 1 → False) := by
  rw [freshStream_is_create]
  decide

/-- C3 (amended): for every hint `h ≥ 1`, `Construct(Stream, h)` yields
`used_bits = 0` and capacity `2 ^ (log2 h + 1)`, the smallest power of two
strictly greater than `h` (a zero hint makes the C code evaluate
`(int)log2(0)`, which is undefined, rather than the claimed capacity 1). -/
theorem c3_amended_stream_capacity (h : Nat) (hh : 1 ≤ h) :
    (bit_vector_create .STREAM h).index = 0 ∧
    (bit_vector_create .STREAM h).length = 2 ^ (Nat.log2 h + 1) ∧
    2 ^ Nat.log2 h ≤ h ∧ h < 2 ^ (Nat.log2 h + 1) :=
  ⟨rfl, rfl, Nat.log2_self_le (by omega), Nat.lt_log2_self⟩

/-- Witness for the amended C3: hint 4 yields capacity 8. -/
theorem c3_amended_stream_capacity_witness :
    (bit_vector_create .STREAM 4).index = 0 ∧
    (bit_vector_create .STREAM 4).length = 2 ^ (Nat.log2 4 + 1) ∧
    2 ^ Nat.log2 4 ≤ 4 ∧ 4 < 2 ^ (Nat.log2 4 + 1) :=
  c3_amended_stream_capacity 4 (by decide)

end BitVector

namespace BitVector

/-! ## Claim C7: the stream invariant -/

theorem streamInv_create (h : Nat) : StreamInv (bit_vector_create .STREAM h) :=
  ⟨Nat.zero_le _, Nat.one_le_two_pow⟩

theorem streamInv_set (v : bit_vector_t) (i : Nat) (hv : StreamInv v) :
    StreamInv (exOk (bit_vector_set (some v) i) v) := by
  by_cases h : v.length ≤ i
  · simp only [bit_vector_set, if_pos h, exOk]
    exact hv
  · rw [set_ok v i (by omega)]
    exact hv

theorem streamInv_clear (v : bit_vector_t) (i : Nat) (hv : StreamInv v) :
    StreamInv (exOk (bit_vector_clear (some v) i) v) := by
  by_cases h : v.length ≤ i
  · simp only [bit_vector_clear, if_pos h, exOk]
    exact hv
  · rw [clear_ok v i (by omega)]
    exact hv

theorem streamInv_resize (v : bit_vector_t) (n : Nat) (_hv : StreamInv v)
    (hn1 : v.index ≤ n) (hn2 : 1 ≤ n) :
    StreamInv (exOk (bit_vector_resize (some v) n) v) :=
  ⟨hn1, hn2⟩

theorem streamInv_append_bit (v : bit_vector_t) (b : Nat) (hv : StreamInv v) :
    StreamInv (exOk (bit_vector_append_bit (some v) b) v) := by
  by_cases hb : 1 < b
  · simp only [bit_vector_append_bit, if_pos hb, exOk]
    exact hv
  · rcases ht : v.vector_type with _ | _
    · rw [append_bit_eq_ok v b ht (by omega) hv.1 hv.2]
      obtain ⟨h1, h2, _⟩ := appendResult_inv v b hv.1 hv.2
      exact ⟨h1, h2⟩
    · simp only [bit_vector_append_bit, if_neg hb, if_pos ht, exOk]
      exact hv

theorem streamInv_appendBitsLoop (bs : List Nat) (v : bit_vector_t)
    (hv : StreamInv v) : StreamInv (appendBitsLoop v bs).2 := by
  induction bs generalizing v with
  | nil => exact hv
  | cons b bs ih =>
    have hstep := streamInv_append_bit v b hv
    rcases heq : bit_vector_append_bit (some v) b with e | w
    · simp only [appendBitsLoop, heq]
      exact hv
    · rw [heq] at hstep
      simp only [appendBitsLoop, heq]
      exact ih w hstep

theorem streamInv_append_string (v : bit_vector_t) (s : List Char)
    (hv : StreamInv v) :
    StreamInv (exOk (bit_vector_append_string (some v) (some s)) v) := by
  by_cases ht : v.vector_type = .ARRAY
  · simp only [bit_vector_append_string, if_pos ht, exOk]
    exact hv
  · have hloop := streamInv_appendBitsLoop (s.map charToBit) v hv
    rcases hL : appendBitsLoop v (s.map charToBit) with ⟨oe, w⟩
    rw [hL] at hloop
    rcases oe with _ | e
    · simp only [bit_vector_append_string, if_neg ht, hL, exOk]
      exact hloop
    · simp only [bit_vector_append_string, if_neg ht, hL, exOk]
      exact hv

theorem streamInv_append_vector (d s : bit_vector_t) (n : Nat)
    (hd : StreamInv d) :
    StreamInv (exOk (bit_vector_append_vector (some d) (some s) n) d) := by
  by_cases ht : d.vector_type = .ARRAY
  · simp only [bit_vector_append_vector, if_pos ht, exOk]
    exact hd
  · set bs := (List.range (if n = 0
      then (if s.vector_type = .ARRAY then s.length else s.index) else n)).map
        (fun i => match bit_vector_get (some s) i with
          | .ok b => b
          | .error _ => 255) with hbs
    have hloop := streamInv_appendBitsLoop bs d hd
    rcases hL : appendBitsLoop d bs with ⟨oe, w⟩
    rw [hL] at hloop
    rcases oe with _ | e
    · simp only [bit_vector_append_vector, if_neg ht, ← hbs, hL, exOk]
      exact hloop
    · simp only [bit_vector_append_vector, if_neg ht, ← hbs, hL, exOk]
      exact hd

theorem streamInv_detach (v : bit_vector_t) (b : Int) (w : bit_vector_t)
    (hdet : bit_vector_detach (some v) = .ok (b, w)) (hv : StreamInv v) :
    StreamInv w := by
  by_cases ht : v.vector_type = .ARRAY
  · rw [bit_vector_detach] at hdet
    simp only [if_pos ht] at hdet
    cases hdet
  · by_cases h0 : v.index = 0
    · rw [bit_vector_detach] at hdet
      simp only [if_neg ht, if_pos h0] at hdet
      cases hdet
    · obtain ⟨hv1, hv2⟩ := hv
      have hm : v.vector_type = .STREAM := by
        rcases hvt : v.vector_type with _ | _
        · rfl
        · exact absurd hvt ht
      rw [detach_eq_ok v hm (by omega) hv1] at hdet
      injection hdet with hp
      injection hp with hp1 hp2
      rw [← hp2]
      exact ⟨by show v.index - 1 ≤ v.length; omega, hv2⟩

/-- C7 counterexample: `oneBitStream` is a Stream vector satisfying
`used_bits ≤ capacity_bits`; `Resize` to capacity 0 is accepted (returns the
vector) yet the result has `used_bits = 1 > 0 = capacity_bits`. -/
theorem c7_counterexample :
    oneBitStream.vector_type = bit_vector_type.STREAM ∧
    oneBitStream.index ≤ oneBitStream.length ∧
    bit_vector_resize (some oneBitStream) 0 = .ok resizedToZero ∧
    resizedToZero.length < resizedToZero.index :=
  ⟨rfl, by decide, rfl, by decide⟩

/-- C7 (amended): the invariant `used_bits ≤ capacity_bits` (strengthened
with `capacity_bits ≥ 1`) holds at stream construction and is preserved by
`Set`, `Clear`, `AppendBit` (and hence iterated appends), `AppendString`,
`AppendVector` and successful `Detach`; `Resize` preserves it exactly under
the extra condition that the requested capacity is at least
`max(used_bits, 1)`.  (`Get`, `VectorToString` and `Encode` do not modify the
vector; `Decode` can construct a violating vector from an inconsistent
header.) -/
theorem c7_amended_invariant_preservation :
    (∀ h, StreamInv (bit_vector_create .STREAM h)) ∧
    (∀ v i, StreamInv v → StreamInv (exOk (bit_vector_set (some v) i) v)) ∧
    (∀ v i, StreamInv v → StreamInv (exOk (bit_vector_clear (some v) i) v)) ∧
    (∀ v n, StreamInv v → v.index ≤ n → 1 ≤ n →
      StreamInv (exOk (bit_vector_resize (some v) n) v)) ∧
    (∀ v b, StreamInv v → StreamInv (exOk (bit_vector_append_bit (some v) b) v)) ∧
    (∀ v bs, StreamInv v → StreamInv (appendBitsLoop v bs).2) ∧
    (∀ v s, StreamInv v →
      StreamInv (exOk (bit_vector_append_string (some v) (some s)) v)) ∧
    (∀ d s n, StreamInv d →
      StreamInv (exOk (bit_vector_append_vector (some d) (some s) n) d)) ∧
    (∀ v b w, bit_vector_detach (some v) = .ok (b, w) → StreamInv v → StreamInv w) :=
  ⟨streamInv_create, streamInv_set, streamInv_clear, streamInv_resize,
    streamInv_append_bit, fun v bs => streamInv_appendBitsLoop bs v,
    streamInv_append_string, streamInv_append_vector, streamInv_detach⟩

/-- Witness for the amended C7: every conjunct instantiated on the concrete
stream vectors. -/
theorem c7_amended_invariant_preservation_witness :
    StreamInv (bit_vector_create .STREAM 0) ∧
    StreamInv (exOk (bit_vector_set (some freshStream) 0) freshStream) ∧
    StreamInv (exOk (bit_vector_clear (some freshStream) 0) freshStream) ∧
    StreamInv (exOk (bit_vector_resize (some oneBitStream) 4) oneBitStream) ∧
    StreamInv (exOk (bit_vector_append_bit (some freshStream) 1) freshStream) ∧
    StreamInv (appendBitsLoop freshStream [1, 0]).2 ∧
    StreamInv (exOk (bit_vector_append_string (some freshStream)
      (some ['1', '0'])) freshStream) ∧
    StreamInv (exOk (bit_vector_append_vector (some freshStream)
      (some oneBitStream) 0) freshStream) ∧
    StreamInv detachedPair.2 :=
  ⟨c7_amended_invariant_preservation.1 0,
   c7_amended_invariant_preservation.2.1 freshStream 0 (by decide),
   c7_amended_invariant_preservation.2.2.1 freshStream 0 (by decide),
   c7_amended_invariant_preservation.2.2.2.1 oneBitStream 4 (by decide)
     (by decide) (by decide),
   c7_amended_invariant_preservation.2.2.2.2.1 freshStream 1 (by decide),
   c7_amended_invariant_preservation.2.2.2.2.2.1 freshStream [1, 0] (by decide),
   c7_amended_invariant_preservation.2.2.2.2.2.2.1 freshStream ['1', '0']
     (by decide),
   c7_amended_invariant_preservation.2.2.2.2.2.2.2.1 freshStream oneBitStream 0
     (by decide),
   c7_amended_invariant_preservation.2.2.2.2.2.2.2.2 oneBitStream
     detachedPair.1 detachedPair.2 rfl (by decide)⟩

end BitVector

namespace BitVector

/-! ## Claim C9: null vector handles -/

/-- C9: every fallible operation taking a vector handle, called with the null
handle, returns its error result with `errno = EINVAL` (for
`bit_vector_append_vector`, a null `dest` or a null `src` both do), before
touching any vector or store state. -/
theorem c9_null_handle_einval :
    (∀ i, bit_vector_get none i = .error .EINVAL) ∧
    (∀ i, bit_vector_set none i = .error .EINVAL) ∧
    (∀ i, bit_vector_clear none i = .error .EINVAL) ∧
    (∀ n, bit_vector_resize none n = .error .EINVAL) ∧
    (∀ b, bit_vector_append_bit none b = .error .EINVAL) ∧
    (∀ s, bit_vector_append_string none s = .error .EINVAL) ∧
    (∀ s n, bit_vector_append_vector none s n = .error .EINVAL) ∧
    (∀ d n, bit_vector_append_vector (some d) none n = .error .EINVAL) ∧
    bit_vector_detach none = .error .EINVAL ∧
    bit_vector_vector_to_string none = .error .EINVAL ∧
    (∀ st off, bit_vector_file_output none st off = .error .EINVAL) :=
  ⟨fun _ => rfl, fun _ => rfl, fun _ => rfl, fun _ => rfl, fun _ => rfl,
   fun _ => rfl, fun _ _ => rfl, fun _ _ => rfl, rfl, rfl, fun _ _ => rfl⟩

/-! ## Claim C5: AppendVector copy count -/

/-- C5 (code bug): `oneBitStream` is a Stream source whose natural length
`L = used_bits` is 1, yet `AppendVector(freshStream, oneBitStream, 2)`
succeeds and copies 2 bits (the destination's `used_bits` becomes 2): the
`max_bits` cap at `L` that the claim requires is not enforced — the second
bit is read from the source's unused capacity. -/
theorem c5_no_cap_bug :
    oneBitStream.vector_type = bit_vector_type.STREAM ∧
    oneBitStream.index = 1 ∧
    freshStream.index = 0 ∧
    bit_vector_append_vector (some freshStream) (some oneBitStream) 2 =
      .ok c5Dest ∧
    c5Dest.index = 2 :=
  ⟨rfl, rfl, rfl, rfl, rfl⟩

/-! ## Claims C8 and C2: serialization layout and round trip -/

/-- C8 (code bug): encoding the 4-bit Array vector `1010` writes the 17-byte
header (mode tag 1 at byte 0, `capacity_bits = 4` in the 8 bytes at 1..8,
`used_bits = 0` at 9..16) but then only `floor(4/8) = 0` payload bytes —
`ceil(4/8) = 1` is required to carry the buffer byte 5 — and returns
offset 17 instead of 18; byte 17 of the store is never written. -/
theorem c8_floor_payload_bug :
    bit_vector_file_output (some array1010) zeroStore 0 = .ok (arrStore, 17) ∧
    arrStore 0 = 1 ∧
    arrStore 1 = 4 ∧
    arrStore 9 = 0 ∧
    array1010.array 0 = 5 ∧
    arrStore 17 = 0 :=
  ⟨rfl, rfl, rfl, rfl, rfl, rfl⟩

/-- C2 (code bug): decoding the store produced by encoding `array1010`
reproduces the mode, `used_bits`, `capacity_bits` and the next offset, but
the payload bits are gone — bit 0 was 1 in the source and is 0 in the decoded
vector — because the final partial payload byte is never written. -/
theorem c2_round_trip_bug :
    bit_vector_file_input arrStore 0 = (arrDecoded, 17) ∧
    arrDecoded.vector_type = array1010.vector_type ∧
    arrDecoded.index = array1010.index ∧
    arrDecoded.length = array1010.length ∧
    bit_vector_get (some array1010) 0 = .ok 1 ∧
    bit_vector_get (some arrDecoded) 0 = .ok 0 :=
  ⟨rfl, rfl, rfl, rfl, rfl, rfl⟩

end BitVector
